import Mathlib

/-!
Verification of `src/dataregistry/src/converters.ts` from
jupyterlab-data-explorer: the dataset expansion engine
(`applyConverterDataset`) and the converter combinator
(`combineManyConverters`).

Shallow embedding conventions:
* `MimeType_` and `URL_` are `String`, `Cost` is `Int` (a totally ordered
  numeric measure; only `≤` comparisons occur in the source).
* A JS `Map<MimeType_, [Cost, CachedObservable<T>]>` is an association list
  with JS `Map` semantics: `get`/`has` find the first (unique) binding,
  `set` replaces the bound value in place keeping insertion order, or
  appends a new binding at the end.
* `Observable` / `CachedObservable` handles are modelled by the inductive
  `Obs`: `Obs.raw` is an arbitrary raw stream, `Obs.cached` is the wrapper
  produced by `CachedObservable.from`.  `Obs.isCached` tells whether the
  outermost layer is the caching wrapper.
* The `while (toProcess.length !== 0)` loop is embedded with explicit fuel,
  returning `none` when the fuel runs out (the TS loop need not terminate
  for an arbitrary converter); `toProcess.pop()` removes the LAST element
  of the array, embedded by `popLast`.
-/

namespace DataRegistry

/-- `MimeType_` from datasets.ts: an opaque string identifier for a format. -/
abbrev MimeType_ := String

/-- `URL_` from datasets.ts: an opaque string identifier for the resource. -/
abbrev URL_ := String

/-- `Cost` from datasets.ts: a totally ordered numeric cost measure. -/
abbrev Cost := Int

/-- Model of data handles: `raw n` is a plain `Observable` (identified by a
value of `α`); `cached o` is the wrapper produced by `CachedObservable.from o`. -/
inductive Obs (α : Type) where
  | raw : α → Obs α
  | cached : Obs α → Obs α
deriving DecidableEq, Repr

/-- Whether the outermost layer of the handle is the caching wrapper
(`CachedObservable`) rather than a raw `Observable`. -/
def Obs.isCached {α : Type} : Obs α → Bool
  | .cached _ => true
  | .raw _ => false

/-- One entry `{ mimeType, cost, data }` as used for the worklist items, the
converter's input record (together with the url) and its output records. -/
structure DEntry (α : Type) where
  mimeType : MimeType_
  cost : Cost
  data : Obs α
deriving DecidableEq, Repr

/-- `Dataset<T> = Map<MimeType_, [Cost, CachedObservable<T>]>` from
datasets.ts, as an association list in insertion order. -/
abbrev Dataset (α : Type) := List (MimeType_ × Cost × Obs α)

/-- `Converter<T, T>` from converters.ts: a function from
`{ url, mimeType, cost, data }` to a list of candidate
`{ mimeType, cost, data }` records (the url is curried first). -/
abbrev Converter (α : Type) := URL_ → DEntry α → List (DEntry α)

/-- JS `Map.prototype.get`: the value bound to `k`, if any (bindings are
unique in a JS map; an association list looks the first one up). -/
def mapGet? {α : Type} : Dataset α → MimeType_ → Option (Cost × Obs α)
  | [], _ => none
  | p :: rest, k => if p.1 = k then some p.2 else mapGet? rest k

/-- JS `Map.prototype.has`. -/
def mapHas {α : Type} (m : Dataset α) (k : MimeType_) : Bool :=
  (mapGet? m k).isSome

/-- JS `Map.prototype.set`: replace the value bound to `k` in place if `k`
is present, keeping insertion order, otherwise append the new binding. -/
def mapSet {α : Type} (m : Dataset α) (k : MimeType_) (v : Cost × Obs α) :
    Dataset α :=
  if mapHas m k then m.map (fun p => if p.1 = k then (k, v) else p)
  else m ++ [(k, v)]

/-- The skip test of the loop:
`processed.has(mimeType) && processed.get(mimeType)![0] <= cost`. -/
def dGuard {α : Type} (pr : Dataset α) (m : MimeType_) (cost : Cost) : Bool :=
  mapHas pr m &&
    match mapGet? pr m with
    | some v => decide (v.1 ≤ cost)
    | none => false

/-- `Array.prototype.pop` on the embedding of the `toProcess` array: removes
and returns the LAST element, together with the remaining array. -/
def popLast {β : Type} : List β → Option (List β × β)
  | [] => none
  | a :: rest =>
    match popLast rest with
    | none => some ([], a)
    | some (l, x) => some (a :: l, x)

/-- The `while (toProcess.length !== 0)` loop of `applyConverterDataset`,
with explicit fuel.  Each iteration pops the last worklist entry; if the
processed map already holds its mimetype at a cost `≤` the entry's cost the
entry is discarded; otherwise the processed map is updated, the converter is
invoked on the entry, every candidate's data handle is wrapped with
`CachedObservable.from` and the candidates are appended to the worklist. -/
def runLoop {α : Type} (url : URL_) (conv : Converter α) :
    Nat → List (DEntry α) → Dataset α → Option (Dataset α)
  | fuel, toProcess, processed =>
    match popLast toProcess with
    | none => some processed
    | some (tp, e) =>
      match fuel with
      | 0 => none
      | fuel + 1 =>
        if dGuard processed e.mimeType e.cost then
          runLoop url conv fuel tp processed
        else
          runLoop url conv fuel
            (tp ++ (conv url e).map (fun c => { c with data := Obs.cached c.data }))
            (mapSet processed e.mimeType (e.cost, e.data))

/-- `applyConverterDataset` from converters.ts: seeds the worklist with the
entries of `dataset` (in map order), starts from an empty processed map and
runs the worklist loop; `none` when `fuel` iterations do not suffice. -/
def applyConverterDataset {α : Type} (fuel : Nat) (url : URL_)
    (dataset : Dataset α) (conv : Converter α) : Option (Dataset α) :=
  runLoop url conv fuel
    (dataset.map (fun p => { mimeType := p.1, cost := p.2.1, data := p.2.2 }))
    []

/-- `combineManyConverters` from converters.ts:
`dataset => converters.map(c => c(dataset)).reduce((l, r) => l.concat(r), [])`. -/
def combineManyConverters {α : Type} (converters : List (Converter α)) :
    Converter α :=
  fun url d => (converters.map (fun c => c url d)).foldl (fun l r => l ++ r) []

/-! ### Exception-aware embedding (for failure propagation)

TypeScript exceptions are embedded by letting the converter return
`Except ε`: the loop body has no `try`/`catch`, so a failure raised by
`converter(...)` aborts the whole call.  `runLoopE` is the same loop as
`runLoop` with that propagation made explicit; the surrounding `Option`
still accounts for fuel. -/

/-- A converter step that may fail (raise an exception) on some inputs. -/
abbrev ConverterE (ε α : Type) := URL_ → DEntry α → Except ε (List (DEntry α))

/-- The worklist loop of `applyConverterDataset` under exception semantics:
identical to `runLoop`, except that invoking the converter may raise, in
which case the whole call returns that failure and no dataset. -/
def runLoopE {ε α : Type} (url : URL_) (conv : ConverterE ε α) :
    Nat → List (DEntry α) → Dataset α → Option (Except ε (Dataset α))
  | fuel, toProcess, processed =>
    match popLast toProcess with
    | none => some (Except.ok processed)
    | some (tp, e) =>
      match fuel with
      | 0 => none
      | fuel + 1 =>
        if dGuard processed e.mimeType e.cost then
          runLoopE url conv fuel tp processed
        else
          match conv url e with
          | Except.error err => some (Except.error err)
          | Except.ok cands =>
            runLoopE url conv fuel
              (tp ++ cands.map (fun c => { c with data := Obs.cached c.data }))
              (mapSet processed e.mimeType (e.cost, e.data))

/-- `applyConverterDataset` under exception semantics. -/
def applyConverterDatasetE {ε α : Type} (fuel : Nat) (url : URL_)
    (dataset : Dataset α) (conv : ConverterE ε α) :
    Option (Except ε (Dataset α)) :=
  runLoopE url conv fuel
    (dataset.map (fun p => { mimeType := p.1, cost := p.2.1, data := p.2.2 }))
    []

/-- A total converter seen as an exception-aware one (it never raises). -/
def liftConv {ε α : Type} (conv : Converter α) : ConverterE ε α :=
  fun url d => Except.ok (conv url d)

/-! ### Heap embedding (for the frame property)

JS `Map` objects live on a heap and `applyConverterDataset` receives a
reference to the seed map.  To state that the call never mutates the seed
map, the heap is made explicit: a list of map values indexed by references.
The source performs exactly these operations on heap-resident maps: one
spread `[...dataset]` of the seed (a read), one `new Map()` (an
allocation), and `has`/`get`/`set` on the freshly allocated processed map.
The worklist array is created fresh inside the call and never aliased, so
it stays functional. -/

/-- An explicit heap of JS `Map` objects; a reference is an index. -/
structure Heap (α : Type) where
  maps : List (Dataset α)
deriving Repr, DecidableEq

/-- Read the map value a reference points to (`[...dataset]` spread). -/
def Heap.read {α : Type} (h : Heap α) (r : Nat) : Dataset α :=
  (h.maps[r]?).getD []

/-- `new Map()`: allocate an empty map, returning its fresh reference. -/
def Heap.alloc {α : Type} (h : Heap α) : Heap α × Nat :=
  (⟨h.maps ++ [[]]⟩, h.maps.length)

/-- `m.set(k, v)` on the heap-resident map behind reference `r`. -/
def Heap.set {α : Type} (h : Heap α) (r : Nat) (k : MimeType_)
    (v : Cost × Obs α) : Heap α :=
  ⟨h.maps.set r (mapSet (h.read r) k v)⟩

/-- The worklist loop with the processed map held behind a heap reference
`prRef`; every `has`/`get`/`set` of the source acts on the heap cell. -/
def runLoopH {α : Type} (url : URL_) (conv : Converter α) :
    Nat → List (DEntry α) → Heap α → Nat → Option (Heap α)
  | fuel, toProcess, h, prRef =>
    match popLast toProcess with
    | none => some h
    | some (tp, e) =>
      match fuel with
      | 0 => none
      | fuel + 1 =>
        if dGuard (h.read prRef) e.mimeType e.cost then
          runLoopH url conv fuel tp h prRef
        else
          runLoopH url conv fuel
            (tp ++ (conv url e).map (fun c => { c with data := Obs.cached c.data }))
            (h.set prRef e.mimeType (e.cost, e.data)) prRef

/-- `applyConverterDataset` acting on a heap: read the seed map behind
`dsRef` once (the spread), allocate the processed map, run the loop, and
return the final heap together with the reference to the returned map. -/
def applyConverterDatasetH {α : Type} (fuel : Nat) (url : URL_)
    (h : Heap α) (dsRef : Nat) (conv : Converter α) :
    Option (Heap α × Nat) :=
  let tp := (h.read dsRef).map
    (fun p => { mimeType := p.1, cost := p.2.1, data := p.2.2 : DEntry α })
  let h1 := (h.alloc).1
  let prRef := (h.alloc).2
  (runLoopH url conv fuel tp h1 prRef).map (fun h2 => (h2, prRef))

/-- Loop invariant for the no-cheaper-edge fixed point: every candidate
produced by the converter from a binding of the processed map is dominated
either by a pending worklist entry or by a processed binding. -/
def LoopInv {α : Type} (url : URL_) (conv : Converter α)
    (tp : List (DEntry α)) (pr : Dataset α) : Prop :=
  ∀ m c d, mapGet? pr m = some (c, d) →
    ∀ cand ∈ conv url ⟨m, c, d⟩,
      (∃ e ∈ tp, e.mimeType = cand.mimeType ∧ e.cost ≤ cand.cost) ∨
      (∃ v, mapGet? pr cand.mimeType = some v ∧ v.1 ≤ cand.cost)

/-! ### Concrete scenario inputs from the spec -/

/-- Scenario seed `{"text/plain": (0, H0)}` (H0 is a caching handle). -/
def seedLoop : Dataset Nat := [("text/plain", (0, Obs.cached (Obs.raw 0)))]

/-- Scenario converter: `"text/plain" ↦ [("text/csv", 1, Hx)]`,
`"text/csv" ↦ [("text/plain", 5, Hy)]`, every other mimetype `↦ []`. -/
def convLoop : Converter Nat := fun _ e =>
  if e.mimeType = "text/plain" then [⟨"text/csv", 1, Obs.raw 1⟩]
  else if e.mimeType = "text/csv" then [⟨"text/plain", 5, Obs.raw 2⟩]
  else []

/-- Scenario seed `{"src": (0, H)}` for the combinator ordering test. -/
def seedPng : Dataset Nat := [("src", (0, Obs.cached (Obs.raw 0)))]

/-- First step: offers `"image/png"` from `"src"` at cost 3. -/
def stepPng3 : Converter Nat := fun _ e =>
  if e.mimeType = "src" then [⟨"image/png", 3, Obs.raw 1⟩] else []

/-- Second step: offers `"image/png"` from `"src"` at cost 2. -/
def stepPng2 : Converter Nat := fun _ e =>
  if e.mimeType = "src" then [⟨"image/png", 2, Obs.raw 2⟩] else []

/-! ### Basic lemmas about the map operations and the worklist -/

theorem popLast_concat {β : Type} (l : List β) (e : β) :
    popLast (l ++ [e]) = some (l, e) := by
  induction l with
  | nil => rfl
  | cons a t ih => simp [popLast, ih]

theorem popLast_eq_none {β : Type} {l : List β} (h : popLast l = none) :
    l = [] := by
  cases l with
  | nil => rfl
  | cons a t =>
    simp only [popLast] at h
    cases ht : popLast t <;> simp [ht] at h

theorem popLast_eq_some {β : Type} {l l' : List β} {e : β}
    (h : popLast l = some (l', e)) : l = l' ++ [e] := by
  induction l generalizing l' with
  | nil => simp [popLast] at h
  | cons a t ih =>
    simp only [popLast] at h
    cases ht : popLast t with
    | none =>
      rw [ht] at h
      obtain ⟨rfl, rfl⟩ := by simpa using h
      simp [popLast_eq_none ht]
    | some p =>
      rw [ht] at h
      obtain ⟨rfl, rfl⟩ := by simpa using h
      simp [ih ht]

theorem mapHas_eq_false {α : Type} {m : Dataset α} {k : MimeType_} :
    mapHas m k = false ↔ mapGet? m k = none := by
  unfold mapHas
  cases h : mapGet? m k <;> simp

theorem mapHas_eq_true {α : Type} {m : Dataset α} {k : MimeType_} :
    mapHas m k = true ↔ ∃ v, mapGet? m k = some v := by
  unfold mapHas
  cases h : mapGet? m k <;> simp

theorem mapGet?_mem {α : Type} {m : Dataset α} {k : MimeType_}
    {v : Cost × Obs α} (h : mapGet? m k = some v) : (k, v) ∈ m := by
  induction m with
  | nil => simp [mapGet?] at h
  | cons p t ih =>
    simp only [mapGet?] at h
    by_cases hk : p.1 = k
    · rw [if_pos hk] at h
      obtain rfl := Option.some_injective _ h
      subst hk
      exact List.mem_cons_self p t
    · rw [if_neg hk] at h
      exact List.mem_cons_of_mem _ (ih h)

theorem mapGet?_replace_self {α : Type} {m : Dataset α} {k : MimeType_}
    (v : Cost × Obs α) {v₀ : Cost × Obs α} (h : mapGet? m k = some v₀) :
    mapGet? (m.map (fun p => if p.1 = k then (k, v) else p)) k = some v := by
  induction m with
  | nil => simp [mapGet?] at h
  | cons p t ih =>
    simp only [mapGet?] at h
    by_cases hk : p.1 = k
    · simp [mapGet?, hk]
    · rw [if_neg hk] at h
      simpa [mapGet?, hk] using ih h

theorem mapGet?_replace_ne {α : Type} (m : Dataset α) {k k' : MimeType_}
    (v : Cost × Obs α) (hne : k' ≠ k) :
    mapGet? (m.map (fun p => if p.1 = k then (k, v) else p)) k' =
      mapGet? m k' := by
  induction m with
  | nil => rfl
  | cons p t ih =>
    by_cases hk : p.1 = k
    · simp only [List.map_cons, if_pos hk, mapGet?]
      rw [if_neg (show ((k, v).1 = k') → False from fun h => hne h.symm),
        if_neg (show (p.1 = k') → False from fun h => hne (h ▸ hk))]
      exact ih
    · simp only [List.map_cons, if_neg hk, mapGet?]
      by_cases hk' : p.1 = k'
      · rw [if_pos hk', if_pos hk']
      · rw [if_neg hk', if_neg hk']
        exact ih

theorem mapGet?_append_single_self {α : Type} {m : Dataset α}
    {k : MimeType_} (v : Cost × Obs α) (h : mapGet? m k = none) :
    mapGet? (m ++ [(k, v)]) k = some v := by
  induction m with
  | nil => simp [mapGet?]
  | cons p t ih =>
    simp only [mapGet?] at h ⊢
    by_cases hk : p.1 = k
    · simp [hk] at h
    · rw [if_neg hk] at h ⊢
      exact ih h

theorem mapGet?_append_single_ne {α : Type} (m : Dataset α)
    {k k' : MimeType_} (v : Cost × Obs α) (hne : k' ≠ k) :
    mapGet? (m ++ [(k, v)]) k' = mapGet? m k' := by
  induction m with
  | nil =>
    simp only [List.nil_append, mapGet?]
    rw [if_neg (show (k = k') → False from fun h => hne h.symm)]
  | cons p t ih =>
    by_cases hk' : p.1 = k'
    · simp [mapGet?, hk']
    · simp [mapGet?, hk', ih]

theorem mapGet?_set_self {α : Type} (m : Dataset α) (k : MimeType_)
    (v : Cost × Obs α) : mapGet? (mapSet m k v) k = some v := by
  unfold mapSet
  by_cases h : mapHas m k = true
  · rw [if_pos h]
    obtain ⟨v₀, hv₀⟩ := mapHas_eq_true.mp h
    exact mapGet?_replace_self v hv₀
  · rw [if_neg h]
    rw [Bool.not_eq_true, mapHas_eq_false] at h
    exact mapGet?_append_single_self v h

theorem mapGet?_set_ne {α : Type} (m : Dataset α) (k k' : MimeType_)
    (v : Cost × Obs α) (hne : k' ≠ k) :
    mapGet? (mapSet m k v) k' = mapGet? m k' := by
  unfold mapSet
  by_cases h : mapHas m k = true
  · rw [if_pos h]
    exact mapGet?_replace_ne m v hne
  · rw [if_neg h]
    exact mapGet?_append_single_ne m v hne

theorem mem_mapSet {α : Type} {m : Dataset α} {k : MimeType_}
    {v : Cost × Obs α} {p : MimeType_ × Cost × Obs α}
    (h : p ∈ mapSet m k v) : p = (k, v) ∨ p ∈ m := by
  unfold mapSet at h
  by_cases hh : mapHas m k = true
  · rw [if_pos hh] at h
    obtain ⟨q, hq, hfq⟩ := List.mem_map.mp h
    by_cases hk : q.1 = k
    · rw [if_pos hk] at hfq
      exact Or.inl hfq.symm
    · rw [if_neg hk] at hfq
      exact Or.inr (hfq ▸ hq)
  · rw [if_neg hh] at h
    rcases List.mem_append.mp h with h' | h'
    · exact Or.inr h'
    · exact Or.inl (by simpa using h')

theorem dGuard_eq_true {α : Type} {pr : Dataset α} {m : MimeType_} {c : Cost} :
    dGuard pr m c = true ↔ ∃ v, mapGet? pr m = some v ∧ v.1 ≤ c := by
  unfold dGuard
  cases h : mapGet? pr m with
  | none => simp [mapHas, h]
  | some v => simp [mapHas, h]

theorem dGuard_eq_false {α : Type} {pr : Dataset α} {m : MimeType_} {c : Cost} :
    dGuard pr m c = false ↔
      mapGet? pr m = none ∨ ∃ v, mapGet? pr m = some v ∧ c < v.1 := by
  unfold dGuard
  cases h : mapGet? pr m with
  | none => simp [mapHas, h]
  | some v => simp [mapHas, h, not_le]

/-- The loop returns the processed map as soon as the worklist is empty,
whatever fuel remains. -/
theorem runLoop_nil {α : Type} (url : URL_) (conv : Converter α) (fuel : Nat)
    (pr : Dataset α) : runLoop url conv fuel [] pr = some pr := by
  rw [runLoop]
  rfl

/-- Any terminating run starting from a non-empty worklist consumes fuel. -/
theorem runLoop_zero_concat {α : Type} (url : URL_) (conv : Converter α)
    (tp : List (DEntry α)) (e : DEntry α) (pr : Dataset α) :
    runLoop url conv 0 (tp ++ [e]) pr = none := by
  rw [runLoop, popLast_concat]

/-- One iteration of the loop: pop the last worklist entry; skip it when the
processed map dominates it, otherwise record it, invoke the converter, wrap
every candidate's handle and append the candidates to the worklist. -/
theorem runLoop_concat {α : Type} (url : URL_) (conv : Converter α)
    (fuel : Nat) (tp : List (DEntry α)) (e : DEntry α) (pr : Dataset α) :
    runLoop url conv (fuel + 1) (tp ++ [e]) pr =
      if dGuard pr e.mimeType e.cost then
        runLoop url conv fuel tp pr
      else
        runLoop url conv fuel
          (tp ++ (conv url e).map (fun c => { c with data := Obs.cached c.data }))
          (mapSet pr e.mimeType (e.cost, e.data)) := by
  rw [runLoop, popLast_concat]

/-! ### Invariant: the result dominates the processed map and the worklist -/

/-- Helper to turn the negation of the skip test into its Boolean form. -/
theorem dGuard_false_of_not {α : Type} {pr : Dataset α} {m : MimeType_}
    {c : Cost} (hg : ¬ dGuard pr m c = true) : dGuard pr m c = false := by
  cases h : dGuard pr m c
  · rfl
  · exact absurd h hg

/-- On a terminating run, every binding of the processed map survives into
the result at a cost `≤` its current cost, and every worklist entry's
mimetype reaches the result at a cost `≤` that entry's cost. -/
theorem runLoop_le {α : Type} (url : URL_) (conv : Converter α) :
    ∀ (fuel : Nat) (tp : List (DEntry α)) (pr res : Dataset α),
      runLoop url conv fuel tp pr = some res →
      (∀ m v, mapGet? pr m = some v →
        ∃ v', mapGet? res m = some v' ∧ v'.1 ≤ v.1) ∧
      (∀ e ∈ tp, ∃ v', mapGet? res e.mimeType = some v' ∧ v'.1 ≤ e.cost) := by
  intro fuel
  induction fuel with
  | zero =>
    intro tp pr res hrun
    rcases List.eq_nil_or_concat tp with rfl | ⟨l, e, rfl⟩
    · rw [runLoop_nil] at hrun
      obtain rfl := Option.some_injective _ hrun
      exact ⟨fun m v h => ⟨v, h, le_refl _⟩, by simp⟩
    · rw [List.concat_eq_append, runLoop_zero_concat] at hrun
      exact absurd hrun (by simp)
  | succ fuel ih =>
    intro tp pr res hrun
    rcases List.eq_nil_or_concat tp with rfl | ⟨l, e, rfl⟩
    · rw [runLoop_nil] at hrun
      obtain rfl := Option.some_injective _ hrun
      exact ⟨fun m v h => ⟨v, h, le_refl _⟩, by simp⟩
    · simp only [List.concat_eq_append] at hrun ⊢
      rw [runLoop_concat] at hrun
      by_cases hg : dGuard pr e.mimeType e.cost = true
      · rw [if_pos hg] at hrun
        obtain ⟨ha, hb⟩ := ih l pr res hrun
        obtain ⟨v₀, hv₀, hv₀c⟩ := dGuard_eq_true.mp hg
        refine ⟨ha, fun e' he' => ?_⟩
        rcases List.mem_append.mp he' with h' | h'
        · exact hb e' h'
        · obtain he : e' = e := by simpa using h'
          rw [he]
          obtain ⟨v', hv', hv'c⟩ := ha e.mimeType v₀ hv₀
          exact ⟨v', hv', le_trans hv'c hv₀c⟩
      · rw [if_neg hg] at hrun
        obtain ⟨ha, hb⟩ := ih _ _ _ hrun
        have hself : ∃ v', mapGet? res e.mimeType = some v' ∧
            v'.1 ≤ e.cost :=
          ha e.mimeType (e.cost, e.data) (mapGet?_set_self pr e.mimeType _)
        refine ⟨fun m v hv => ?_, fun e' he' => ?_⟩
        · by_cases hm : m = e.mimeType
          · subst hm
            rcases dGuard_eq_false.mp (dGuard_false_of_not hg) with
              hnone | ⟨v₀, hv₀, hlt⟩
            · rw [hv] at hnone
              exact absurd hnone (by simp)
            · rw [hv] at hv₀
              obtain rfl := Option.some_injective _ hv₀
              obtain ⟨v', hv', hv'c⟩ := hself
              exact ⟨v', hv', le_trans hv'c (le_of_lt hlt)⟩
          · have := mapGet?_set_ne pr e.mimeType m (e.cost, e.data) hm
            exact ha m v (by rw [this]; exact hv)
        · rcases List.mem_append.mp he' with h' | h'
          · exact hb e' (List.mem_append_left _ h')
          · obtain he : e' = e := by simpa using h'
            rw [he]
            exact hself

/-- The loop preserves `LoopInv` and so establishes it for the final state
(empty worklist, result map). -/
theorem runLoop_inv {α : Type} (url : URL_) (conv : Converter α) :
    ∀ (fuel : Nat) (tp : List (DEntry α)) (pr res : Dataset α),
      LoopInv url conv tp pr → runLoop url conv fuel tp pr = some res →
      LoopInv url conv [] res := by
  intro fuel
  induction fuel with
  | zero =>
    intro tp pr res hInv hrun
    rcases List.eq_nil_or_concat tp with rfl | ⟨l, e, rfl⟩
    · rw [runLoop_nil] at hrun
      obtain rfl := Option.some_injective _ hrun
      exact hInv
    · rw [List.concat_eq_append, runLoop_zero_concat] at hrun
      exact absurd hrun (by simp)
  | succ fuel ih =>
    intro tp pr res hInv hrun
    rcases List.eq_nil_or_concat tp with rfl | ⟨l, e, rfl⟩
    · rw [runLoop_nil] at hrun
      obtain rfl := Option.some_injective _ hrun
      exact hInv
    · simp only [List.concat_eq_append] at hInv hrun
      rw [runLoop_concat] at hrun
      by_cases hg : dGuard pr e.mimeType e.cost = true
      · rw [if_pos hg] at hrun
        refine ih l pr res ?_ hrun
        intro m c d hmd cand hcand
        rcases hInv m c d hmd cand hcand with ⟨e', he', hmime, hcost⟩ | hpr
        · rcases List.mem_append.mp he' with h' | h'
          · exact Or.inl ⟨e', h', hmime, hcost⟩
          · obtain he : e' = e := by simpa using h'
            obtain ⟨v₀, hv₀, hv₀c⟩ := dGuard_eq_true.mp hg
            refine Or.inr ⟨v₀, ?_, ?_⟩
            · rw [← hmime, he]
              exact hv₀
            · exact le_trans hv₀c (he ▸ hcost)
        · exact Or.inr hpr
      · rw [if_neg hg] at hrun
        refine ih _ _ res ?_ hrun
        intro m c d hmd cand hcand
        by_cases hm : m = e.mimeType
        · subst hm
          rw [mapGet?_set_self] at hmd
          have hcd : (e.cost, e.data) = (c, d) := Option.some_injective _ hmd
          obtain ⟨hc, hd⟩ := Prod.mk.inj hcd
          subst hc
          subst hd
          refine Or.inl ⟨{ cand with data := Obs.cached cand.data }, ?_, rfl, le_refl _⟩
          exact List.mem_append_right _ (List.mem_map_of_mem _ hcand)
        · rw [mapGet?_set_ne pr e.mimeType m _ hm] at hmd
          rcases hInv m c d hmd cand hcand with ⟨e', he', hmime, hcost⟩ | ⟨v, hv, hvc⟩
          · rcases List.mem_append.mp he' with h' | h'
            · exact Or.inl ⟨e', List.mem_append_left _ h', hmime, hcost⟩
            · obtain he : e' = e := by simpa using h'
              refine Or.inr ⟨(e.cost, e.data), ?_, ?_⟩
              · rw [← hmime, he]
                exact mapGet?_set_self pr e.mimeType _
              · exact he ▸ hcost
          · by_cases hcm : cand.mimeType = e.mimeType
            · rcases dGuard_eq_false.mp (dGuard_false_of_not hg) with
                hnone | ⟨v₀, hv₀, hlt⟩
              · rw [hcm] at hv
                rw [hv] at hnone
                exact absurd hnone (by simp)
              · rw [hcm] at hv
                rw [hv] at hv₀
                obtain rfl := Option.some_injective _ hv₀
                refine Or.inr ⟨(e.cost, e.data), ?_, ?_⟩
                · rw [hcm]
                  exact mapGet?_set_self pr e.mimeType _
                · exact le_trans (le_of_lt hlt) hvc
            · refine Or.inr ⟨v, ?_, hvc⟩
              rw [mapGet?_set_ne pr e.mimeType _ _ hcm]
              exact hv

/-- The result of a terminating run, with an all-cached worklist and
processed map, is all-cached: every handle it holds wears the caching
wrapper. -/
theorem runLoop_cached {α : Type} (url : URL_) (conv : Converter α) :
    ∀ (fuel : Nat) (tp : List (DEntry α)) (pr res : Dataset α),
      (∀ e ∈ tp, e.data.isCached = true) →
      (∀ p ∈ pr, (p.2.2).isCached = true) →
      runLoop url conv fuel tp pr = some res →
      ∀ p ∈ res, (p.2.2).isCached = true := by
  intro fuel
  induction fuel with
  | zero =>
    intro tp pr res htp hpr hrun
    rcases List.eq_nil_or_concat tp with rfl | ⟨l, e, rfl⟩
    · rw [runLoop_nil] at hrun
      obtain rfl := Option.some_injective _ hrun
      exact hpr
    · rw [List.concat_eq_append, runLoop_zero_concat] at hrun
      exact absurd hrun (by simp)
  | succ fuel ih =>
    intro tp pr res htp hpr hrun
    rcases List.eq_nil_or_concat tp with rfl | ⟨l, e, rfl⟩
    · rw [runLoop_nil] at hrun
      obtain rfl := Option.some_injective _ hrun
      exact hpr
    · simp only [List.concat_eq_append] at htp hrun
      rw [runLoop_concat] at hrun
      have hecached : e.data.isCached = true :=
        htp e (List.mem_append_right _ (List.mem_cons_self e []))
      by_cases hg : dGuard pr e.mimeType e.cost = true
      · rw [if_pos hg] at hrun
        exact ih l pr res (fun e' h' => htp e' (List.mem_append_left _ h'))
          hpr hrun
      · rw [if_neg hg] at hrun
        refine ih _ _ res ?_ ?_ hrun
        · intro e' he'
          rcases List.mem_append.mp he' with h' | h'
          · exact htp e' (List.mem_append_left _ h')
          · obtain ⟨c, _, rfl⟩ := List.mem_map.mp h'
            rfl
        · intro p hp
          rcases mem_mapSet hp with rfl | hp'
          · exact hecached
          · exact hpr p hp'

/-! ### Claim theorems -/

/-- C1: for every entry `E` in the dataset returned by
`applyConverterDataset(url, seed, step)` and every candidate `C` in
`step(E)`, either `C`'s mimetype is absent from the returned dataset, or
the returned dataset's cost for `C`'s mimetype is `≤` `C`'s cost: the
result is a fixed point under one more application of the converter. -/
theorem applyConverterDataset_fixed_point {α : Type} (fuel : Nat)
    (url : URL_) (seed : Dataset α) (conv : Converter α) (res : Dataset α)
    (hrun : applyConverterDataset fuel url seed conv = some res)
    (m : MimeType_) (c : Cost) (d : Obs α)
    (hmem : mapGet? res m = some (c, d))
    (cand : DEntry α) (hcand : cand ∈ conv url ⟨m, c, d⟩) :
    mapGet? res cand.mimeType = none ∨
      ∃ v, mapGet? res cand.mimeType = some v ∧ v.1 ≤ cand.cost := by
  have hrun' : runLoop url conv fuel
      (seed.map (fun p => { mimeType := p.1, cost := p.2.1, data := p.2.2 }))
      [] = some res := hrun
  have hInv0 : LoopInv url conv
      (seed.map (fun p => { mimeType := p.1, cost := p.2.1, data := p.2.2 }))
      [] := by
    intro m' c' d' h'
    simp [mapGet?] at h'
  have hfin := runLoop_inv url conv fuel _ _ res hInv0 hrun'
  rcases hfin m c d hmem cand hcand with ⟨e', he', _⟩ | hpr
  · simp at he'
  · exact Or.inr hpr

/-- Witness for C1: a concrete run that converts `"a"` into `"b"` at cost 1
and keeps both; the candidate's mimetype `"b"` is in the result at cost
`≤ 1`. -/
theorem applyConverterDataset_fixed_point_witness :
    mapGet? [("a", ((0 : Cost), Obs.cached (Obs.raw 0))),
        ("b", (1, Obs.cached (Obs.raw 1)))] "b" = none ∨
      ∃ v, mapGet? [("a", ((0 : Cost), Obs.cached (Obs.raw 0))),
        ("b", (1, Obs.cached (Obs.raw 1)))] "b" = some v ∧
        v.1 ≤ (⟨"b", 1, Obs.raw (1 : Nat)⟩ : DEntry Nat).cost :=
  applyConverterDataset_fixed_point 3 "u"
    [("a", (0, Obs.cached (Obs.raw 0)))]
    (fun _ e => if e.mimeType = "a" then [⟨"b", 1, Obs.raw 1⟩] else [])
    [("a", (0, Obs.cached (Obs.raw 0))), ("b", (1, Obs.cached (Obs.raw 1)))]
    (by decide) "a" 0 (Obs.cached (Obs.raw 0)) (by decide)
    ⟨"b", 1, Obs.raw 1⟩ (by decide)

/-- C4: for every seed dataset, converter and url, and every mimetype `m`
that is a key of the seed, a returned dataset contains `m`, at a cost `≤`
the seed's cost for `m`. -/
theorem applyConverterDataset_seed_cost_le {α : Type} (fuel : Nat)
    (url : URL_) (seed : Dataset α) (conv : Converter α) (res : Dataset α)
    (hrun : applyConverterDataset fuel url seed conv = some res)
    (m : MimeType_) (v : Cost × Obs α) (hseed : mapGet? seed m = some v) :
    ∃ v', mapGet? res m = some v' ∧ v'.1 ≤ v.1 := by
  have hrun' : runLoop url conv fuel
      (seed.map (fun p => { mimeType := p.1, cost := p.2.1, data := p.2.2 }))
      [] = some res := hrun
  have hb := (runLoop_le url conv fuel _ [] res hrun').2
  have hmem : ({ mimeType := m, cost := v.1, data := v.2 } : DEntry α) ∈
      seed.map (fun p => { mimeType := p.1, cost := p.2.1, data := p.2.2 }) :=
    List.mem_map_of_mem _ (mapGet?_mem hseed)
  exact hb _ hmem

/-- Witness for C4: the seed holds `"a"` at cost 2, the converter rediscovers
`"a"` at cost 1, and the result keeps `"a"` at cost `1 ≤ 2`. -/
theorem applyConverterDataset_seed_cost_le_witness :
    ∃ v', mapGet? [("a", ((1 : Cost), Obs.cached (Obs.raw 1)))] "a" =
      some v' ∧ v'.1 ≤ ((2 : Cost), Obs.cached (Obs.raw (0 : Nat))).1 :=
  applyConverterDataset_seed_cost_le 3 "u"
    [("a", (2, Obs.cached (Obs.raw 0)))]
    (fun _ e => if e.mimeType = "a" then [⟨"a", 1, Obs.raw 1⟩] else [])
    [("a", (1, Obs.cached (Obs.raw 1)))]
    (by decide) "a" (2, Obs.cached (Obs.raw 0)) (by decide)

/-- C6: in every iteration, the entry popped from the worklist is discarded
without invoking the converter and without touching the processed map when
the processed map already holds its mimetype at a cost `≤` the popped cost;
otherwise the processed map's value for that mimetype is set (or
overwritten) to the popped `(cost, handle)` pair; for equal costs the entry
processed first is kept. -/
theorem runLoop_pop_step {α : Type} (url : URL_) (conv : Converter α)
    (fuel : Nat) (tp : List (DEntry α)) (e : DEntry α) (pr : Dataset α) :
    (runLoop url conv (fuel + 1) (tp ++ [e]) pr =
      if dGuard pr e.mimeType e.cost then
        runLoop url conv fuel tp pr
      else
        runLoop url conv fuel
          (tp ++ (conv url e).map (fun c => { c with data := Obs.cached c.data }))
          (mapSet pr e.mimeType (e.cost, e.data))) ∧
    (mapGet? (mapSet pr e.mimeType (e.cost, e.data)) e.mimeType =
      some (e.cost, e.data)) ∧
    ∀ v, mapGet? pr e.mimeType = some v → v.1 ≤ e.cost →
      runLoop url conv (fuel + 1) (tp ++ [e]) pr =
        runLoop url conv fuel tp pr := by
  refine ⟨runLoop_concat url conv fuel tp e pr,
    mapGet?_set_self pr e.mimeType _, fun v hv hvc => ?_⟩
  rw [runLoop_concat, if_pos (dGuard_eq_true.mpr ⟨v, hv, hvc⟩)]

/-- Witness for C6: with `"a"` already processed at cost 1, a second popped
`"a"` entry of equal cost 1 is discarded and the loop goes on unchanged. -/
theorem runLoop_pop_step_witness :
    runLoop "u" (fun _ _ => ([] : List (DEntry Nat))) (0 + 1)
        ([] ++ [⟨"a", 1, Obs.raw 0⟩]) [("a", (1, Obs.raw 1))] =
      runLoop "u" (fun _ _ => ([] : List (DEntry Nat))) 0 []
        [("a", (1, Obs.raw 1))] :=
  (runLoop_pop_step "u" (fun _ _ => ([] : List (DEntry Nat))) 0 []
    ⟨"a", 1, Obs.raw 0⟩ [("a", (1, Obs.raw 1))]).2.2
    (1, Obs.raw 1) (by decide) (by decide)

/-- C7: every data handle in a returned dataset is a caching wrapper: seed
entries are already caching handles and every candidate handle produced by
the converter is wrapped with the caching constructor before it is pushed
onto the worklist, so no raw handle reaches the returned dataset. -/
theorem applyConverterDataset_all_cached {α : Type} (fuel : Nat)
    (url : URL_) (seed : Dataset α) (conv : Converter α) (res : Dataset α)
    (hseed : ∀ p ∈ seed, (p.2.2).isCached = true)
    (hrun : applyConverterDataset fuel url seed conv = some res)
    (p : MimeType_ × Cost × Obs α) (hp : p ∈ res) :
    (p.2.2).isCached = true := by
  have hrun' : runLoop url conv fuel
      (seed.map (fun q => { mimeType := q.1, cost := q.2.1, data := q.2.2 }))
      [] = some res := hrun
  refine runLoop_cached url conv fuel _ [] res ?_ (by simp) hrun' p hp
  intro e he
  obtain ⟨q, hq, rfl⟩ := List.mem_map.mp he
  exact hseed q hq

/-- Witness for C7: both entries of a concrete result (the seed's own and a
converted, wrapped one) carry the caching wrapper. -/
theorem applyConverterDataset_all_cached_witness :
    (Obs.cached (Obs.raw (0 : Nat))).isCached = true ∧
      (Obs.cached (Obs.raw (1 : Nat))).isCached = true :=
  ⟨applyConverterDataset_all_cached 3 "u"
      [("a", (0, Obs.cached (Obs.raw 0)))]
      (fun _ e => if e.mimeType = "a" then [⟨"c", 1, Obs.raw 1⟩] else [])
      [("a", (0, Obs.cached (Obs.raw 0))), ("c", (1, Obs.cached (Obs.raw 1)))]
      (by decide) (by decide) ("a", (0, Obs.cached (Obs.raw 0))) (by decide),
    applyConverterDataset_all_cached 3 "u"
      [("a", (0, Obs.cached (Obs.raw 0)))]
      (fun _ e => if e.mimeType = "a" then [⟨"c", 1, Obs.raw 1⟩] else [])
      [("a", (0, Obs.cached (Obs.raw 0))), ("c", (1, Obs.cached (Obs.raw 1)))]
      (by decide) (by decide) ("c", (1, Obs.cached (Obs.raw 1))) (by decide)⟩

/-- C2: on the seed `{"text/plain": (0, H0)}` with the converter mapping
`"text/plain"` to `[("text/csv", 1, Hx)]`, `"text/csv"` to
`[("text/plain", 5, Hy)]` and everything else to `[]`, the returned
dataset's mimetype-to-cost mapping is exactly
`{"text/plain": 0, "text/csv": 1}`: the cost-5 loop entry back to
`"text/plain"` is discarded. -/
theorem applyConverterDataset_loop_scenario :
    (applyConverterDataset 5 "url" seedLoop convLoop).map
        (fun r => r.map (fun p => (p.1, p.2.1))) =
      some [("text/plain", 0), ("text/csv", 1)] := by
  decide

/-- C3: two steps offering `"image/png"` from the same source entry at costs
3 and 2, merged with `combineManyConverters` in either order, both yield a
dataset mapping `"image/png"` to cost 2. -/
theorem applyConverterDataset_combine_order :
    ((applyConverterDataset 5 "u" seedPng
          (combineManyConverters [stepPng3, stepPng2])).map
        (fun r => (mapGet? r "image/png").map Prod.fst) = some (some 2)) ∧
      (applyConverterDataset 5 "u" seedPng
          (combineManyConverters [stepPng2, stepPng3])).map
        (fun r => (mapGet? r "image/png").map Prod.fst) = some (some 2) := by
  exact ⟨by decide, by decide⟩

/-- Folding list concatenation from an initial accumulator concatenates. -/
theorem foldl_append_eq_flatten {β : Type} :
    ∀ (ls : List (List β)) (init : List β),
      ls.foldl (fun l r => l ++ r) init = init ++ ls.flatten := by
  intro ls
  induction ls with
  | nil => intro init; simp
  | cons hd tl ih =>
    intro init
    simp only [List.foldl_cons, List.flatten_cons, ih, List.append_assoc]

/-- C5: `combineManyConverters(c1, ..., cn)` applied to an entry equals the
concatenation `c1(d) ++ c2(d) ++ ... ++ cn(d)`, preserving the order of the
steps and each step's own candidate order; in particular the two-step
combination is `a(d) ++ b(d)`. -/
theorem combineManyConverters_concat {α : Type} :
    (∀ (cs : List (Converter α)) (url : URL_) (d : DEntry α),
      combineManyConverters cs url d =
        (cs.map (fun c => c url d)).flatten) ∧
    ∀ (a b : Converter α) (url : URL_) (d : DEntry α),
      combineManyConverters [a, b] url d = a url d ++ b url d := by
  have h : ∀ (cs : List (Converter α)) (url : URL_) (d : DEntry α),
      combineManyConverters cs url d =
        (cs.map (fun c => c url d)).flatten := by
    intro cs url d
    unfold combineManyConverters
    rw [foldl_append_eq_flatten, List.nil_append]
  refine ⟨h, fun a b url d => ?_⟩
  rw [h [a, b] url d]
  simp

/-! ### The empty combinator leaves the seed's mapping unchanged -/

theorem mapSet_of_get_none {α : Type} {m : Dataset α} {k : MimeType_}
    (v : Cost × Obs α) (h : mapGet? m k = none) :
    mapSet m k v = m ++ [(k, v)] := by
  unfold mapSet
  rw [if_neg]
  rw [mapHas_eq_false.symm] at h
  simp [h]

theorem mapGet?_append {α : Type} (xs ys : Dataset α) (k : MimeType_) :
    mapGet? (xs ++ ys) k =
      match mapGet? xs k with
      | some v => some v
      | none => mapGet? ys k := by
  induction xs with
  | nil => rfl
  | cons p t ih =>
    by_cases hk : p.1 = k
    · simp [mapGet?, hk]
    · simp [mapGet?, hk, ih]

theorem mapGet?_eq_none_of_not_mem {α : Type} {m : Dataset α}
    {k : MimeType_} (h : k ∉ m.map Prod.fst) : mapGet? m k = none := by
  induction m with
  | nil => rfl
  | cons p t ih =>
    simp only [List.map_cons, List.mem_cons] at h
    push_neg at h
    rw [mapGet?, if_neg (fun hp => h.1 hp.symm)]
    exact ih h.2

/-- With unique keys, looking a key up in the reversed association list
gives the same binding. -/
theorem mapGet?_reverse {α : Type} {m : Dataset α}
    (hnd : (m.map Prod.fst).Nodup) (k : MimeType_) :
    mapGet? m.reverse k = mapGet? m k := by
  induction m with
  | nil => rfl
  | cons p t ih =>
    simp only [List.map_cons, List.nodup_cons] at hnd
    rw [List.reverse_cons, mapGet?_append]
    by_cases hk : p.1 = k
    · have hnone : mapGet? t.reverse k = none := by
        refine mapGet?_eq_none_of_not_mem ?_
        rw [List.map_reverse, List.mem_reverse, ← hk]
        exact hnd.1
      rw [hnone]
      simp [mapGet?, hk]
    · rw [ih hnd.2]
      cases h : mapGet? t k
      · simp [mapGet?, hk, h]
      · simp [mapGet?, hk, h]

/-- A run with a converter that never produces candidates appends the
worklist entries (in pop order) to the processed map, provided their keys
are fresh and mutually distinct. -/
theorem runLoop_conv_nil {α : Type} (url : URL_) (conv : Converter α)
    (hconv : ∀ u d, conv u d = []) :
    ∀ (fuel : Nat) (tp : List (DEntry α)) (pr : Dataset α),
      tp.length ≤ fuel →
      (∀ e ∈ tp, mapGet? pr e.mimeType = none) →
      (tp.map DEntry.mimeType).Nodup →
      runLoop url conv fuel tp pr =
        some (pr ++ tp.reverse.map (fun e => (e.mimeType, e.cost, e.data))) := by
  intro fuel
  induction fuel with
  | zero =>
    intro tp pr hlen _ _
    obtain rfl : tp = [] := List.length_eq_zero.mp (Nat.le_zero.mp hlen)
    simp [runLoop_nil]
  | succ fuel ih =>
    intro tp pr hlen hfresh hnd
    rcases List.eq_nil_or_concat tp with rfl | ⟨l, e, rfl⟩
    · simp [runLoop_nil]
    · simp only [List.concat_eq_append] at hlen hfresh hnd ⊢
      have hnone : mapGet? pr e.mimeType = none :=
        hfresh e (List.mem_append_right _ (List.mem_cons_self e []))
      rw [runLoop_concat, if_neg (by rw [dGuard_eq_false.mpr (Or.inl hnone)]; simp),
        hconv url e, List.map_nil, List.append_nil,
        mapSet_of_get_none _ hnone]
      rw [List.map_append, List.map_cons, List.map_nil] at hnd
      have hmime : e.mimeType ∉ l.map DEntry.mimeType := fun hmem =>
        (List.nodup_append.mp hnd).2.2 hmem (List.mem_singleton.mpr rfl)
      have hlen' : l.length ≤ fuel := by
        rw [List.length_append, List.length_singleton] at hlen
        omega
      have hfresh' : ∀ e' ∈ l,
          mapGet? (pr ++ [(e.mimeType, e.cost, e.data)]) e'.mimeType = none := by
        intro e' he'
        rw [mapGet?_append, hfresh e' (List.mem_append_left _ he')]
        have hne : ¬ e.mimeType = e'.mimeType := fun hh =>
          hmime (hh ▸ List.mem_map_of_mem DEntry.mimeType he')
        simp [mapGet?, hne]
      rw [ih l (pr ++ [(e.mimeType, e.cost, e.data)]) hlen' hfresh'
        (List.nodup_append.mp hnd).1]
      simp

/-- C10: `combineManyConverters` of zero steps returns the converter that
yields the empty candidate list on every entry, and using it as the step of
`applyConverterDataset` returns a dataset whose mimetype-to-cost mapping
equals the seed's. -/
theorem combineManyConverters_nil_identity {α : Type} :
    (∀ (url : URL_) (d : DEntry α),
      combineManyConverters ([] : List (Converter α)) url d = []) ∧
    ∀ (fuel : Nat) (url : URL_) (seed : Dataset α) (m : MimeType_),
      (seed.map Prod.fst).Nodup → seed.length ≤ fuel →
      (applyConverterDataset fuel url seed
          (combineManyConverters [])).map
          (fun res => (mapGet? res m).map Prod.fst) =
        some ((mapGet? seed m).map Prod.fst) := by
  have hconv : ∀ (u : URL_) (d : DEntry α),
      combineManyConverters ([] : List (Converter α)) u d = [] :=
    fun _ _ => rfl
  refine ⟨hconv, fun fuel url seed m hnd hlen => ?_⟩
  have hnd' : ((seed.map (fun p =>
      { mimeType := p.1, cost := p.2.1, data := p.2.2 : DEntry α })).map
      DEntry.mimeType).Nodup := by
    rw [List.map_map]
    exact hnd
  have hlen' : (seed.map (fun p =>
      { mimeType := p.1, cost := p.2.1, data := p.2.2 : DEntry α })).length ≤
      fuel := by
    rw [List.length_map]
    exact hlen
  have happ : applyConverterDataset fuel url seed
      (combineManyConverters ([] : List (Converter α))) = some seed.reverse := by
    have hrun := runLoop_conv_nil url (combineManyConverters []) hconv fuel
      (seed.map (fun p => { mimeType := p.1, cost := p.2.1, data := p.2.2 }))
      [] hlen' (fun _ _ => rfl) hnd'
    unfold applyConverterDataset
    rw [hrun]
    congr 1
    rw [List.nil_append, ← List.map_reverse, List.map_map]
    have hid : ((fun e : DEntry α => (e.mimeType, e.cost, e.data)) ∘
        (fun p : MimeType_ × Cost × Obs α =>
          { mimeType := p.1, cost := p.2.1, data := p.2.2 : DEntry α })) =
        id := by
      funext p
      rfl
    rw [hid, List.map_id]
  rw [happ, Option.map_some', mapGet?_reverse hnd]

/-- Witness for C10 on the one-entry seed `{"a": (0, H)}`: the empty
combination produces no candidates and the run keeps the seed's mapping. -/
theorem combineManyConverters_nil_identity_witness :
    (combineManyConverters ([] : List (Converter Nat)) "u"
        ⟨"a", 0, Obs.raw 0⟩ = []) ∧
    (applyConverterDataset 1 "u" [("a", ((0 : Cost), Obs.raw 0))]
        (combineManyConverters [])).map
        (fun res => (mapGet? res "a").map Prod.fst) =
      some ((mapGet? [("a", ((0 : Cost), Obs.raw (0 : Nat)))] "a").map
        Prod.fst) :=
  ⟨combineManyConverters_nil_identity.1 "u" ⟨"a", 0, Obs.raw 0⟩,
    combineManyConverters_nil_identity.2 1 "u"
      [("a", (0, Obs.raw 0))] "a" (by decide) (by decide)⟩

/-! ### Failure propagation -/

theorem runLoopE_nil {ε α : Type} (url : URL_) (conv : ConverterE ε α)
    (fuel : Nat) (pr : Dataset α) :
    runLoopE url conv fuel [] pr = some (Except.ok pr) := by
  rw [runLoopE]
  rfl

theorem runLoopE_zero_concat {ε α : Type} (url : URL_)
    (conv : ConverterE ε α) (tp : List (DEntry α)) (e : DEntry α)
    (pr : Dataset α) : runLoopE url conv 0 (tp ++ [e]) pr = none := by
  rw [runLoopE, popLast_concat]

theorem runLoopE_concat {ε α : Type} (url : URL_) (conv : ConverterE ε α)
    (fuel : Nat) (tp : List (DEntry α)) (e : DEntry α) (pr : Dataset α) :
    runLoopE url conv (fuel + 1) (tp ++ [e]) pr =
      if dGuard pr e.mimeType e.cost then
        runLoopE url conv fuel tp pr
      else
        match conv url e with
        | Except.error err => some (Except.error err)
        | Except.ok cands =>
          runLoopE url conv fuel
            (tp ++ cands.map (fun c => { c with data := Obs.cached c.data }))
            (mapSet pr e.mimeType (e.cost, e.data)) := by
  rw [runLoopE, popLast_concat]

/-- A total converter lifted into the exception-aware loop never fails: the
run agrees with the plain loop wrapped in `Except.ok`. -/
theorem runLoopE_lift {ε α : Type} (url : URL_) (conv : Converter α) :
    ∀ (fuel : Nat) (tp : List (DEntry α)) (pr : Dataset α),
      runLoopE url (liftConv (ε := ε) conv) fuel tp pr =
        (runLoop url conv fuel tp pr).map Except.ok := by
  intro fuel
  induction fuel with
  | zero =>
    intro tp pr
    rcases List.eq_nil_or_concat tp with rfl | ⟨l, e, rfl⟩
    · rw [runLoopE_nil, runLoop_nil, Option.map_some']
    · rw [List.concat_eq_append, runLoopE_zero_concat, runLoop_zero_concat,
        Option.map_none']
  | succ fuel ih =>
    intro tp pr
    rcases List.eq_nil_or_concat tp with rfl | ⟨l, e, rfl⟩
    · rw [runLoopE_nil, runLoop_nil, Option.map_some']
    · rw [List.concat_eq_append, runLoopE_concat, runLoop_concat]
      by_cases hg : dGuard pr e.mimeType e.cost = true
      · rw [if_pos hg, if_pos hg, ih]
      · rw [if_neg hg, if_neg hg]
        exact ih _ _

/-- C8: if the converter step raises a failure on an entry the loop invokes
it on, the failure propagates out of the call and the caller receives no
partial dataset (first conjunct: at the very iteration whose converter
invocation fails, the whole call returns exactly that failure); if the
converter is total, the run raises no failure (second conjunct: it is the
plain run wrapped in `Except.ok`). -/
theorem applyConverterDataset_failure_propagation {ε α : Type} :
    (∀ (url : URL_) (conv : ConverterE ε α) (fuel : Nat)
      (tp : List (DEntry α)) (e : DEntry α) (pr : Dataset α) (err : ε),
      dGuard pr e.mimeType e.cost = false →
      conv url e = Except.error err →
      runLoopE url conv (fuel + 1) (tp ++ [e]) pr =
        some (Except.error err)) ∧
    ∀ (conv : Converter α) (fuel : Nat) (url : URL_) (seed : Dataset α),
      applyConverterDatasetE fuel url seed (liftConv (ε := ε) conv) =
        (applyConverterDataset fuel url seed conv).map Except.ok := by
  constructor
  · intro url conv fuel tp e pr err hg herr
    rw [runLoopE_concat, if_neg (by rw [hg]; simp), herr]
  · intro conv fuel url seed
    exact runLoopE_lift url conv fuel _ []

/-- Witness for C8: a converter that always raises `"boom"` makes a one-step
run return exactly that failure, and a concrete total converter gives the
plain result wrapped in `Except.ok`. -/
theorem applyConverterDataset_failure_propagation_witness :
    (runLoopE "u" (fun _ _ => Except.error "boom")
        (0 + 1) ([] ++ [(⟨"a", 0, Obs.raw 0⟩ : DEntry Nat)]) [] =
      some (Except.error "boom")) ∧
    applyConverterDatasetE 2 "u" [("a", ((0 : Cost), Obs.cached (Obs.raw 0)))]
        (liftConv (ε := String) (fun _ _ => ([] : List (DEntry Nat)))) =
      (applyConverterDataset 2 "u"
        [("a", ((0 : Cost), Obs.cached (Obs.raw 0)))]
        (fun _ _ => ([] : List (DEntry Nat)))).map Except.ok :=
  ⟨applyConverterDataset_failure_propagation.1 "u"
      (fun _ _ => Except.error "boom") 0 [] ⟨"a", 0, Obs.raw 0⟩ [] "boom"
      (by decide) rfl,
    applyConverterDataset_failure_propagation.2
      (fun _ _ => ([] : List (DEntry Nat))) 2 "u"
      [("a", (0, Obs.cached (Obs.raw 0)))]⟩

/-! ### The frame property: the seed map cell is never written -/

theorem runLoopH_nil {α : Type} (url : URL_) (conv : Converter α)
    (fuel : Nat) (h : Heap α) (prRef : Nat) :
    runLoopH url conv fuel [] h prRef = some h := by
  rw [runLoopH]
  rfl

theorem runLoopH_zero_concat {α : Type} (url : URL_) (conv : Converter α)
    (tp : List (DEntry α)) (e : DEntry α) (h : Heap α) (prRef : Nat) :
    runLoopH url conv 0 (tp ++ [e]) h prRef = none := by
  rw [runLoopH, popLast_concat]

theorem runLoopH_concat {α : Type} (url : URL_) (conv : Converter α)
    (fuel : Nat) (tp : List (DEntry α)) (e : DEntry α) (h : Heap α)
    (prRef : Nat) :
    runLoopH url conv (fuel + 1) (tp ++ [e]) h prRef =
      if dGuard (h.read prRef) e.mimeType e.cost then
        runLoopH url conv fuel tp h prRef
      else
        runLoopH url conv fuel
          (tp ++ (conv url e).map (fun c => { c with data := Obs.cached c.data }))
          (h.set prRef e.mimeType (e.cost, e.data)) prRef := by
  rw [runLoopH, popLast_concat]

/-- Writing through one reference leaves every other heap cell unchanged. -/
theorem Heap.maps_set_get_ne {α : Type} (h : Heap α) (r j : Nat)
    (k : MimeType_) (v : Cost × Obs α) (hne : j ≠ r) :
    (h.set r k v).maps[j]? = h.maps[j]? := by
  unfold Heap.set
  exact List.getElem?_set_ne (fun hh => hne hh.symm)

/-- The loop writes only the processed map's cell: every other heap cell is
the same after a terminating run. -/
theorem runLoopH_frame {α : Type} (url : URL_) (conv : Converter α) :
    ∀ (fuel : Nat) (tp : List (DEntry α)) (h : Heap α) (prRef : Nat)
      (h' : Heap α),
      runLoopH url conv fuel tp h prRef = some h' →
      ∀ j, j ≠ prRef → h'.maps[j]? = h.maps[j]? := by
  intro fuel
  induction fuel with
  | zero =>
    intro tp h prRef h' hrun j hj
    rcases List.eq_nil_or_concat tp with rfl | ⟨l, e, rfl⟩
    · rw [runLoopH_nil] at hrun
      obtain rfl := Option.some_injective _ hrun
      rfl
    · rw [List.concat_eq_append, runLoopH_zero_concat] at hrun
      exact absurd hrun (by simp)
  | succ fuel ih =>
    intro tp h prRef h' hrun j hj
    rcases List.eq_nil_or_concat tp with rfl | ⟨l, e, rfl⟩
    · rw [runLoopH_nil] at hrun
      obtain rfl := Option.some_injective _ hrun
      rfl
    · rw [List.concat_eq_append, runLoopH_concat] at hrun
      by_cases hg : dGuard (h.read prRef) e.mimeType e.cost = true
      · rw [if_pos hg] at hrun
        exact ih l h prRef h' hrun j hj
      · rw [if_neg hg] at hrun
        rw [ih _ _ prRef h' hrun j hj]
        exact Heap.maps_set_get_ne h prRef j _ _ hj

/-- C9: `applyConverterDataset` never mutates the seed dataset: the returned
dataset is a freshly allocated map (its reference differs from the seed's),
and after the call the seed's heap cell holds exactly the same map, so the
seed maps the same mimetype keys to the same `(cost, handle)` pairs as
before the call. -/
theorem applyConverterDataset_no_seed_mutation {α : Type} (fuel : Nat)
    (url : URL_) (conv : Converter α) (h : Heap α) (dsRef : Nat)
    (h' : Heap α) (resRef : Nat) (hds : dsRef < h.maps.length)
    (hrun : applyConverterDatasetH fuel url h dsRef conv = some (h', resRef)) :
    resRef ≠ dsRef ∧ h'.maps[dsRef]? = h.maps[dsRef]? ∧
      ∀ m, mapGet? (h'.read dsRef) m = mapGet? (h.read dsRef) m := by
  unfold applyConverterDatasetH at hrun
  rcases Option.map_eq_some'.mp hrun with ⟨h2, hrun2, heq⟩
  obtain ⟨rfl, hres⟩ := Prod.mk.inj heq
  have hresRef : resRef = h.maps.length := hres.symm
  have hne : resRef ≠ dsRef := by
    rw [hresRef]
    exact fun hh => absurd (hh ▸ hds) (lt_irrefl _)
  have hcell : h2.maps[dsRef]? = h.maps[dsRef]? := by
    have hframe := runLoopH_frame url conv fuel _ _ _ _ hrun2 dsRef
      (Nat.ne_of_lt hds)
    rw [hframe]
    unfold Heap.alloc
    exact List.getElem?_append_left hds
  refine ⟨hne, hcell, fun m => ?_⟩
  unfold Heap.read
  rw [hcell]

/-- Witness for C9 on a one-cell heap holding the seed `{"a": (0, H)}`: the
result reference is fresh and the seed cell is unchanged, key for key. -/
theorem applyConverterDataset_no_seed_mutation_witness :
    (1 : Nat) ≠ 0 ∧
    (Heap.mk [[("a", ((0 : Cost), Obs.cached (Obs.raw (0 : Nat))))],
        [("a", (0, Obs.cached (Obs.raw 0)))]]).maps[0]? =
      (Heap.mk [[("a", ((0 : Cost), Obs.cached (Obs.raw (0 : Nat))))]]).maps[0]? ∧
    mapGet? ((Heap.mk [[("a", ((0 : Cost), Obs.cached (Obs.raw (0 : Nat))))],
        [("a", (0, Obs.cached (Obs.raw 0)))]]).read 0) "a" =
      mapGet? ((Heap.mk
        [[("a", ((0 : Cost), Obs.cached (Obs.raw (0 : Nat))))]]).read 0) "a" :=
  ⟨(applyConverterDataset_no_seed_mutation 1 "u" (fun _ _ => [])
      (Heap.mk [[("a", (0, Obs.cached (Obs.raw 0)))]]) 0
      (Heap.mk [[("a", (0, Obs.cached (Obs.raw 0)))],
        [("a", (0, Obs.cached (Obs.raw 0)))]]) 1
      (by decide) (by decide)).1,
    (applyConverterDataset_no_seed_mutation 1 "u" (fun _ _ => [])
      (Heap.mk [[("a", (0, Obs.cached (Obs.raw 0)))]]) 0
      (Heap.mk [[("a", (0, Obs.cached (Obs.raw 0)))],
        [("a", (0, Obs.cached (Obs.raw 0)))]]) 1
      (by decide) (by decide)).2.1,
    (applyConverterDataset_no_seed_mutation 1 "u" (fun _ _ => [])
      (Heap.mk [[("a", (0, Obs.cached (Obs.raw 0)))]]) 0
      (Heap.mk [[("a", (0, Obs.cached (Obs.raw 0)))],
        [("a", (0, Obs.cached (Obs.raw 0)))]]) 1
      (by decide) (by decide)).2.2 "a"⟩

end DataRegistry
